import Mathlib

/-!
Verification of the salted-join pipeline from the ons-spark material
(`spark-concepts/salted_joins.md`).  DataFrames are embedded as Lean lists
of rows; the PySpark column expressions (`F.concat`, `F.floor`, `F.rand`,
`F.when`, `crossJoin`, `join(..., how="left")`, `groupBy(...).count()`)
are embedded as executable functions on those lists.  The per-row random
stream produced by `F.rand(seed_no)` is modelled as a function
`rng : Nat -> Rat` giving the random value drawn for each row position,
with the engine contract that every value lies in `[0, 1)` carried as a
hypothesis where a theorem needs it.
-/

namespace SaltedJoins

/-- Decimal rendering of a natural number, digit characters only, with a
fuel argument to keep the recursion structural (the fuel is always large
enough; see `natCharsAux_congr`). -/
def natCharsAux : Nat → Nat → List Char
  | 0, _ => []
  | fuel + 1, n =>
    if n < 10 then [Nat.digitChar n]
    else natCharsAux fuel (n / 10) ++ [Nat.digitChar (n % 10)]

/-- The decimal digit characters of `n`, most significant first.  This is
the rendering the engine applies when the integer salt index is
concatenated into a string column. -/
def natChars (n : Nat) : List Char := natCharsAux (n + 1) n

/-- Decimal rendering of a natural number as a string. -/
def natStr (n : Nat) : String := String.mk (natChars n)

/-- The salted key built by the tutorial on both sides of the join:
`F.concat(F.col("join_col"), F.lit("-"), <salt index>)`, i.e. the original
key, the fixed delimiter `"-"`, and the decimal salt index. -/
def saltedKey (k : String) (s : Nat) : String := k ++ "-" ++ natStr s

theorem natCharsAux_congr : ∀ (f g n : Nat), n < f → n < g →
    natCharsAux f n = natCharsAux g n := by
  intro f
  induction f with
  | zero => intro g n hf; omega
  | succ f ih =>
    intro g n hf hg
    cases g with
    | zero => omega
    | succ g =>
      by_cases h10 : n < 10
      · simp [natCharsAux, h10]
      · have hdiv : n / 10 < n := Nat.div_lt_self (by omega) (by omega)
        simp only [natCharsAux, if_neg h10]
        rw [ih g (n / 10) (by omega) (by omega)]

theorem natChars_eq (n : Nat) : natChars n =
    if n < 10 then [Nat.digitChar n]
    else natChars (n / 10) ++ [Nat.digitChar (n % 10)] := by
  by_cases h10 : n < 10
  · simp [natChars, natCharsAux, h10]
  · have hdiv : n / 10 < n := Nat.div_lt_self (by omega) (by omega)
    simp only [natChars, natCharsAux, if_neg h10]
    rw [natCharsAux_congr n (n / 10 + 1) (n / 10) (by omega) (by omega)]
    rfl

theorem digitChar_ne_dash : ∀ d : Nat, d < 10 → Nat.digitChar d ≠ '-' := by
  decide

theorem digitChar_inj_lt : ∀ a : Nat, a < 10 → ∀ b : Nat, b < 10 →
    Nat.digitChar a = Nat.digitChar b → a = b := by
  decide

theorem natChars_ne_nil (n : Nat) : natChars n ≠ [] := by
  rw [natChars_eq]
  by_cases h10 : n < 10 <;> simp [h10]

theorem natChars_ne_dash (n : Nat) : ∀ c ∈ natChars n, c ≠ '-' := by
  induction n using Nat.strong_induction_on with
  | _ n ih =>
    rw [natChars_eq]
    by_cases h10 : n < 10
    · simp only [if_pos h10, List.mem_singleton]
      intro c hc
      exact hc ▸ digitChar_ne_dash n h10
    · simp only [if_neg h10, List.mem_append, List.mem_singleton]
      intro c hc
      rcases hc with hc | hc
      · exact ih (n / 10) (Nat.div_lt_self (by omega) (by omega)) c hc
      · exact hc ▸ digitChar_ne_dash (n % 10) (Nat.mod_lt _ (by omega))

theorem natChars_inj : ∀ m n : Nat, natChars m = natChars n → m = n := by
  intro m
  induction m using Nat.strong_induction_on with
  | _ m ih =>
    intro n h
    rw [natChars_eq m, natChars_eq n] at h
    by_cases hm : m < 10 <;> by_cases hn : n < 10
    · simp only [if_pos hm, if_pos hn, List.cons.injEq, and_true] at h
      exact digitChar_inj_lt m hm n hn h
    · rw [if_pos hm, if_neg hn] at h
      have hlen := congrArg List.length h
      simp only [List.length_append, List.length_cons, List.length_nil] at hlen
      have hnil : (natChars (n / 10)).length = 0 := by omega
      exact absurd (List.length_eq_zero.mp hnil) (natChars_ne_nil (n / 10))
    · rw [if_neg hm, if_pos hn] at h
      have hlen := congrArg List.length h
      simp only [List.length_append, List.length_cons, List.length_nil] at hlen
      have hnil : (natChars (m / 10)).length = 0 := by omega
      exact absurd (List.length_eq_zero.mp hnil) (natChars_ne_nil (m / 10))
    · rw [if_neg hm, if_neg hn] at h
      obtain ⟨h1, h2⟩ := List.append_inj' h rfl
      have hdig : m % 10 = n % 10 := by
        have := List.cons.inj h2
        exact digitChar_inj_lt _ (Nat.mod_lt _ (by omega)) _ (Nat.mod_lt _ (by omega)) this.1
      have hdiv : m / 10 = n / 10 :=
        ih (m / 10) (Nat.div_lt_self (by omega) (by omega)) (n / 10) h1
      omega

theorem natStr_inj (m n : Nat) (h : natStr m = natStr n) : m = n :=
  natChars_inj m n (congrArg String.data h)

/-- Splitting a character list at the delimiter: if neither suffix contains
the delimiter, the decomposition is unique. -/
theorem dash_split : ∀ (a b d1 d2 : List Char), '-' ∉ d1 → '-' ∉ d2 →
    a ++ '-' :: d1 = b ++ '-' :: d2 → a = b ∧ d1 = d2 := by
  intro a
  induction a with
  | nil =>
    intro b d1 d2 h1 h2 h
    cases b with
    | nil => simpa using h
    | cons c t =>
      simp only [List.nil_append, List.cons_append, List.cons.injEq] at h
      exact absurd (h.2 ▸ List.mem_append_right t (List.mem_cons_self '-' d2)) h1
  | cons c t iht =>
    intro b d1 d2 h1 h2 h
    cases b with
    | nil =>
      simp only [List.nil_append, List.cons_append, List.cons.injEq] at h
      exact absurd (h.2.symm ▸ List.mem_append_right t (List.mem_cons_self '-' d1)) h2
    | cons cb tb =>
      simp only [List.cons_append, List.cons.injEq] at h
      obtain ⟨heq, hd⟩ := iht tb d1 d2 h1 h2 h.2
      exact ⟨by rw [h.1, heq], hd⟩

/-- Injectivity of the salted-key construction on (key, salt index) pairs:
decimal digits never contain the delimiter, so the concatenation can be
split back uniquely. -/
theorem saltedKey_inj {k1 k2 : String} {i j : Nat}
    (h : saltedKey k1 i = saltedKey k2 j) : k1 = k2 ∧ i = j := by
  have hd : k1.data ++ '-' :: natChars i = k2.data ++ '-' :: natChars j := by
    have := congrArg String.data h
    simpa [saltedKey, natStr, String.data_append] using this
  have hsplit := dash_split k1.data k2.data (natChars i) (natChars j)
    (by intro hc; exact natChars_ne_dash i '-' hc rfl)
    (by intro hc; exact natChars_ne_dash j '-' hc rfl) hd
  exact ⟨String.ext hsplit.1, natChars_inj i j hsplit.2⟩

variable {α : Type} {β : Type} {γ : Type} {δ : Type} {κ : Type}

/-- The salt index assigned to the row at position `i` of the skewed
DataFrame: `F.floor(F.rand(seed_no) * salt_count)`, with the random stream
of `F.rand(seed_no)` given by `rng`. -/
def saltIndex (rng : Nat → ℚ) (S : Nat) (i : Nat) : Nat :=
  (⌊rng i * (S : ℚ)⌋).toNat

/-- `joined_df = skewed_df.join(small_df, on="join_col", how="left")`: the
direct (unsalted) left equi-join on the original key.  A skewed row is a
key paired with its remaining columns (`id`); a small row is a key paired
with its remaining columns (`number_col`).  Joined rows carry the key, the
skewed-side columns and the (nullable) small-side columns. -/
def joinedDf : List (String × α) → List (String × β) → List (String × α × Option β)
  | [], _ => []
  | r :: rest, small =>
    (if (small.filter fun s => decide (s.1 = r.1)).isEmpty then [(r.1, r.2, none)]
     else (small.filter fun s => decide (s.1 = r.1)).map fun s => (r.1, r.2, some s.2)) ++
    joinedDf rest small

/-- `crossJoin`: the cartesian product of two row lists. -/
def crossJoin : List γ → List δ → List (γ × δ)
  | [], _ => []
  | a :: l, right => right.map (fun b => (a, b)) ++ crossJoin l right

/-- `salt_df = spark.range(salt_count)`: the integers `[0, S)`. -/
def salt_df (S : Nat) : List Nat := List.range S

/-- `small_df.crossJoin(salt_df).withColumn("salted_col", F.concat(F.col("join_col"), F.lit("-"), F.col("id")))`:
every small row paired with every salt index, carrying the salted key. -/
def smallWithSalted (S : Nat) (small : List (String × β)) :
    List ((String × β) × Nat × String) :=
  (crossJoin small (salt_df S)).map fun p => (p.1, p.2, saltedKey p.1.1 p.2)

/-- `small_df_salted`: the above with `.drop("id", "join_col")`, keeping
only the non-key columns and the salted key. -/
def smallDfSalted (S : Nat) (small : List (String × β)) : List (β × String) :=
  (smallWithSalted S small).map fun r => (r.1.2, r.2.2)

/-- `skewed_df.withColumn("salted_col", F.concat(F.col("join_col"), F.lit("-"), F.floor(F.rand(seed_no) * salt_count)))`:
every skewed row keeps its columns and gains the salted key built from its
randomly drawn salt index.  Row at position `i` draws `rng i`. -/
def skewedDfSalted (rng : Nat → ℚ) (S : Nat) : List (String × α) → List ((String × α) × String)
  | [] => []
  | r :: rest =>
    (r, saltedKey r.1 (saltIndex rng S 0)) :: skewedDfSalted (fun i => rng (i + 1)) S rest

/-- Left equi-join on the salted key column, as in
`skewed_df.join(small_df_salted, on="salted_col", how="left")`. -/
def joinOnSalted : List ((String × α) × String) → List (β × String) →
    List (((String × α) × String) × Option β)
  | [], _ => []
  | r :: rest, right =>
    (if (right.filter fun s => decide (s.2 = r.2)).isEmpty then [(r, none)]
     else (right.filter fun s => decide (s.2 = r.2)).map fun s => (r, some s.1)) ++
    joinOnSalted rest right

/-- `salted_join_df`: the full salted-join pipeline of the tutorial — salt
the skewed side, explode the small side, left-join on the salted key. -/
def saltedJoinDf (rng : Nat → ℚ) (S : Nat) (skewed : List (String × α))
    (small : List (String × β)) : List (((String × α) × String) × Option β) :=
  joinOnSalted (skewedDfSalted rng S skewed) (smallDfSalted S small)

/-- Modelled from the spec: the seeded per-row pseudorandom
generator `rand(seed)` (external interface (e) of §6) is not part of this
repository; per §5/§9 it is a deterministic function of the seed and the
row position with values in `[0, 1)`, modelled here by a concrete linear
congruential generator. -/
def mkRng (seed : Nat) (i : Nat) : ℚ :=
  (((seed * 48271 + i * 16807 + 11) % 2147483647 : Nat) : ℚ) / (2147483647 : ℚ)

/-- The salted join run with the seeded generator of the engine. -/
def saltedJoinSeeded (seed : Nat) (S : Nat) (skewed : List (String × α))
    (small : List (String × β)) : List (((String × α) × String) × Option β) :=
  saltedJoinDf (mkRng seed) S skewed small

/-- Modelled from the spec: §4.2 requires the salt-key transformer to fail
with a type error, surfaced to the caller, when the join key cannot be
rendered as text.  The tutorial fixes a string key column, so the fallible
rendering step is not in the source; it is modelled by a caller-supplied
partial rendering function on an arbitrary key type. -/
def saltSkewedChecked (render : κ → Option String) (rng : Nat → ℚ) (S : Nat) :
    List (κ × α) → Except String (List ((κ × α) × String))
  | [] => Except.ok []
  | r :: rest =>
    match render r.1 with
    | none => Except.error "type error: join key cannot be rendered as text"
    | some k =>
      match saltSkewedChecked render (fun i => rng (i + 1)) S rest with
      | Except.error e => Except.error e
      | Except.ok t => Except.ok ((r, saltedKey k (saltIndex rng S 0)) :: t)

/-- `F.round(x, 3)`: round to three decimal places, half up. -/
def round3 (q : ℚ) : ℚ := ((round (q * 1000) : ℤ) : ℚ) / 1000

/-- `df.groupBy("join_col").count()`: one row per distinct key, in first
occurrence order, with the number of rows carrying that key. -/
def groupCount (df : List (String × α)) : List (String × Nat) :=
  (df.map Prod.fst).dedup.map fun k => (k, df.countP fun r => decide (r.1 = k))

/-- The key-distribution diagnostic of the tutorial:
`df.groupBy("join_col").count().withColumn("pct_of_data", F.round((F.col("count") / row_ct) * 100, 3))`,
where `row_ct` is the total row count of `df`. -/
def pctOfData (df : List (String × α)) : List (String × Nat × ℚ) :=
  (groupCount df).map fun g => (g.1, g.2, round3 ((g.2 : ℚ) / (df.length : ℚ) * 100))

theorem saltIndex_lt {rng : Nat → ℚ} {S i : Nat} (hS : 0 < S)
    (_h0 : 0 ≤ rng i) (h1 : rng i < 1) : saltIndex rng S i < S := by
  have hSq : (0 : ℚ) < (S : ℚ) := by exact_mod_cast hS
  have h2 : rng i * (S : ℚ) < (S : ℚ) := by
    calc rng i * (S : ℚ) < 1 * (S : ℚ) := mul_lt_mul_of_pos_right h1 hSq
      _ = (S : ℚ) := one_mul _
  have h3 : ⌊rng i * (S : ℚ)⌋ < (S : ℤ) := Int.floor_lt.mpr (by exact_mod_cast h2)
  unfold saltIndex
  omega

theorem smallDfSalted_nil (S : Nat) : smallDfSalted S ([] : List (String × β)) = [] := rfl

theorem smallDfSalted_cons (S : Nat) (x : String × β) (l : List (String × β)) :
    smallDfSalted S (x :: l) =
      (List.range S).map (fun j => (x.2, saltedKey x.1 j)) ++ smallDfSalted S l := by
  simp [smallDfSalted, smallWithSalted, crossJoin, salt_df, List.map_append, List.map_map,
    Function.comp_def]

theorem range_filter_eq : ∀ (S s : Nat), s < S →
    (List.range S).filter (fun j => decide (j = s)) = [s] := by
  intro S
  induction S with
  | zero => intro s hs; omega
  | succ S ih =>
    intro s hs
    rw [List.range_succ, List.filter_append]
    by_cases hcase : s < S
    · rw [ih s hcase]
      have : ¬(S = s) := by omega
      simp [this]
    · have hSs : S = s := by omega
      have hempty : (List.range S).filter (fun j => decide (j = s)) = [] := by
        rw [List.filter_eq_nil_iff]
        intro j hj
        have := List.mem_range.mp hj
        simp only [decide_eq_true_eq]
        omega
      rw [hempty]
      simp [hSs]

theorem filter_salted_small {S s : Nat} (hs : s < S) (k : String) :
    ∀ small : List (String × β),
      (smallDfSalted S small).filter (fun x => decide (x.2 = saltedKey k s)) =
        (small.filter fun y => decide (y.1 = k)).map fun y => (y.2, saltedKey k s) := by
  intro small
  induction small with
  | nil => rfl
  | cons y l ih =>
    rw [smallDfSalted_cons, List.filter_append, ih, List.filter_cons]
    by_cases hk : y.1 = k
    · have hfilter : ((List.range S).map fun j => (y.2, saltedKey y.1 j)).filter
          (fun x => decide (x.2 = saltedKey k s)) = [(y.2, saltedKey k s)] := by
        rw [List.filter_map]
        have hcongr : (List.range S).filter
            ((fun x => decide (x.2 = saltedKey k s)) ∘ fun j => (y.2, saltedKey y.1 j)) =
            (List.range S).filter (fun j => decide (j = s)) := by
          apply List.filter_congr
          intro j hj
          simp only [Function.comp_apply, decide_eq_decide]
          constructor
          · intro h; exact (saltedKey_inj (hk ▸ h)).2
          · intro h; rw [hk, h]
        rw [hcongr, range_filter_eq S s hs]
        simp [hk]
      rw [hfilter]
      simp [hk]
    · have hfilter : ((List.range S).map fun j => (y.2, saltedKey y.1 j)).filter
          (fun x => decide (x.2 = saltedKey k s)) = [] := by
        rw [List.filter_map, List.filter_eq_nil_iff.mpr, List.map_nil]
        intro j hj
        simp only [Function.comp_apply, decide_eq_true_eq]
        intro h
        exact hk (saltedKey_inj h).1
      rw [hfilter]
      simp [hk]

/-- Core refinement lemma: projecting the salted-key column away from the
salted join yields exactly the direct left equi-join on the original key. -/
theorem saltedJoin_proj {S : Nat} (hS : 0 < S) (small : List (String × β)) :
    ∀ (skewed : List (String × α)) (rng : Nat → ℚ), (∀ i, 0 ≤ rng i ∧ rng i < 1) →
    (saltedJoinDf rng S skewed small).map (fun r => (r.1.1.1, r.1.1.2, r.2)) =
      joinedDf skewed small := by
  intro skewed
  induction skewed with
  | nil => intro rng hrng; rfl
  | cons x l ih =>
    intro rng hrng
    have hs : saltIndex rng S 0 < S := saltIndex_lt hS (hrng 0).1 (hrng 0).2
    show (joinOnSalted ((x, saltedKey x.1 (saltIndex rng S 0)) ::
        skewedDfSalted (fun i => rng (i + 1)) S l) (smallDfSalted S small)).map _ = _
    rw [joinOnSalted, List.map_append, joinedDf,
      show joinOnSalted (skewedDfSalted (fun i => rng (i + 1)) S l) (smallDfSalted S small) =
        saltedJoinDf (fun i => rng (i + 1)) S l small from rfl,
      ih (fun i => rng (i + 1)) (fun i => hrng (i + 1))]
    congr 1
    rw [filter_salted_small hs x.1 small]
    by_cases hempty : (small.filter fun y => decide (y.1 = x.1)) = []
    · simp [hempty]
    · simp [List.isEmpty_eq_true, List.map_eq_nil_iff, hempty, List.map_map, Function.comp_def]

theorem mem_crossJoin {L : List γ} {R : List δ} {p : γ × δ} :
    p ∈ crossJoin L R ↔ p.1 ∈ L ∧ p.2 ∈ R := by
  obtain ⟨p1, p2⟩ := p
  induction L with
  | nil => simp [crossJoin]
  | cons a l ih =>
    simp only [crossJoin, List.mem_append, List.mem_map, List.mem_cons, ih]
    constructor
    · rintro (⟨b, hb, heq⟩ | ⟨h1, h2⟩)
      · cases heq
        exact ⟨Or.inl rfl, hb⟩
      · exact ⟨Or.inr h1, h2⟩
    · rintro ⟨rfl | h1, h2⟩
      · exact Or.inl ⟨p2, h2, rfl⟩
      · exact Or.inr ⟨h1, h2⟩

theorem mem_smallDfSalted {S : Nat} {small : List (String × β)} {row : β × String} :
    row ∈ smallDfSalted S small ↔ ∃ y ∈ small, ∃ j < S, row = (y.2, saltedKey y.1 j) := by
  simp only [smallDfSalted, smallWithSalted, List.mem_map]
  constructor
  · rintro ⟨r, ⟨p, hp, rfl⟩, rfl⟩
    have h := mem_crossJoin.mp hp
    exact ⟨p.1, h.1, p.2, by simpa [salt_df] using h.2, rfl⟩
  · rintro ⟨y, hy, j, hj, rfl⟩
    exact ⟨(y, j, saltedKey y.1 j),
      ⟨(y, j), mem_crossJoin.mpr ⟨hy, by simp [salt_df, hj]⟩, rfl⟩, rfl⟩

theorem skewedDfSalted_mem {S : Nat} (hS : 0 < S) :
    ∀ (df : List (String × α)) (rng : Nat → ℚ), (∀ i, 0 ≤ rng i ∧ rng i < 1) →
    ∀ row ∈ skewedDfSalted rng S df,
      row.1 ∈ df ∧ ∃ s, s < S ∧ row.2 = saltedKey row.1.1 s := by
  intro df
  induction df with
  | nil => intro rng hrng row hrow; simp [skewedDfSalted] at hrow
  | cons x l ih =>
    intro rng hrng row hrow
    rcases List.mem_cons.mp hrow with h | h
    · subst h
      exact ⟨List.mem_cons_self x l,
        saltIndex rng S 0, saltIndex_lt hS (hrng 0).1 (hrng 0).2, rfl⟩
    · obtain ⟨h1, h2⟩ := ih (fun i => rng (i + 1)) (fun i => hrng (i + 1)) row h
      exact ⟨List.mem_cons_of_mem x h1, h2⟩

theorem skewedDfSalted_exists {S : Nat} :
    ∀ (df : List (String × α)) (rng : Nat → ℚ) (x : String × α), x ∈ df →
    ∃ sk, (x, sk) ∈ skewedDfSalted rng S df := by
  intro df
  induction df with
  | nil => intro rng x hx; simp at hx
  | cons y l ih =>
    intro rng x hx
    rcases List.mem_cons.mp hx with h | h
    · subst h
      exact ⟨saltedKey x.1 (saltIndex rng S 0), List.mem_cons_self _ _⟩
    · obtain ⟨sk, hsk⟩ := ih (fun i => rng (i + 1)) x h
      exact ⟨sk, List.mem_cons_of_mem _ hsk⟩

theorem joinOnSalted_mem_left :
    ∀ (L : List ((String × α) × String)) (R : List (β × String)),
    ∀ row ∈ joinOnSalted L R, row.1 ∈ L := by
  intro L R
  induction L with
  | nil => intro row hrow; simp [joinOnSalted] at hrow
  | cons r rest ih =>
    intro row hrow
    rw [joinOnSalted] at hrow
    rcases List.mem_append.mp hrow with h | h
    · by_cases hempty : ((R.filter fun s => decide (s.2 = r.2)).isEmpty : Bool)
      · rw [if_pos hempty] at h
        rcases List.mem_singleton.mp h with rfl
        exact List.mem_cons_self _ _
      · rw [if_neg hempty] at h
        obtain ⟨s, _, rfl⟩ := List.mem_map.mp h
        exact List.mem_cons_self _ _
    · exact List.mem_cons_of_mem _ (ih row h)

theorem skewedDfSalted_mem_fst {S : Nat} :
    ∀ (df : List (String × α)) (rng : Nat → ℚ),
    ∀ row ∈ skewedDfSalted rng S df, row.1 ∈ df := by
  intro df
  induction df with
  | nil => intro rng row hrow; simp [skewedDfSalted] at hrow
  | cons x l ih =>
    intro rng row hrow
    rcases List.mem_cons.mp hrow with h | h
    · subst h; exact List.mem_cons_self x l
    · exact List.mem_cons_of_mem x (ih (fun i => rng (i + 1)) row h)

theorem mkRng_bounds (seed i : Nat) : 0 ≤ mkRng seed i ∧ mkRng seed i < 1 := by
  unfold mkRng
  constructor
  · positivity
  · rw [div_lt_one (by norm_num)]
    have h : (seed * 48271 + i * 16807 + 11) % 2147483647 < 2147483647 :=
      Nat.mod_lt _ (by norm_num)
    exact_mod_cast h

theorem saltSkewedChecked_cons_none (render : κ → Option String) (rng : Nat → ℚ)
    (S : Nat) (x : κ × α) (l : List (κ × α)) (h : render x.1 = none) :
    saltSkewedChecked render rng S (x :: l) =
      Except.error "type error: join key cannot be rendered as text" := by
  simp only [saltSkewedChecked, h]

theorem saltSkewedChecked_cons_some (render : κ → Option String) (rng : Nat → ℚ)
    (S : Nat) (x : κ × α) (l : List (κ × α)) (k : String) (h : render x.1 = some k) :
    saltSkewedChecked render rng S (x :: l) =
      match saltSkewedChecked render (fun i => rng (i + 1)) S l with
      | Except.error e => Except.error e
      | Except.ok t => Except.ok ((x, saltedKey k (saltIndex rng S 0)) :: t) := by
  simp only [saltSkewedChecked, h]

/-- C1: for every pair of left/right datasets and every salt factor `S ≥ 1`,
the salted join (skewed side salted with a random index in `[0, S)`, small
side expanded to all `S` indices, then an equality join on the salted key)
produces the same multiset of joined rows as a direct equi-join on the
original key, up to row order and the extra salted-key column; for `S = 1`
(as for every `S ≥ 1`) the projected output is listwise identical to the
unsalted join. -/
theorem salted_join_equivalence (rng : Nat → ℚ) (S : Nat) (hS : 1 ≤ S)
    (hrng : ∀ i, 0 ≤ rng i ∧ rng i < 1)
    (skewed : List (String × α)) (small : List (String × β)) :
    (((saltedJoinDf rng S skewed small).map fun r => (r.1.1.1, r.1.1.2, r.2)) :
        Multiset (String × α × Option β)) = (joinedDf skewed small :
        Multiset (String × α × Option β)) ∧
    ((saltedJoinDf rng S skewed small).map fun r => (r.1.1.1, r.1.1.2, r.2)) =
      joinedDf skewed small := by
  have h := saltedJoin_proj hS small skewed rng hrng
  exact ⟨congrArg Multiset.ofList h, h⟩

theorem salted_join_equivalence_check :
    ((saltedJoinDf (mkRng 123) 10 [("A", (0 : Nat))] [("A", (5 : Nat))]).map
        fun r => (r.1.1.1, r.1.1.2, r.2)) =
      joinedDf [("A", (0 : Nat))] [("A", (5 : Nat))] :=
  (salted_join_equivalence (mkRng 123) 10 (by norm_num)
    (fun i => mkRng_bounds 123 i) _ _).2

/-- C2: after the two transforms, every key present in both datasets yields
at least one salted-key value occurring on both sides, and every
skewed-side row whose key also occurs in the small dataset has a matching
counterpart in the exploded set of the small side, because the small side
enumerates all `S` salt indices. -/
theorem salted_key_coverage (rng : Nat → ℚ) (S : Nat) (hS : 1 ≤ S)
    (hrng : ∀ i, 0 ≤ rng i ∧ rng i < 1)
    (skewed : List (String × α)) (small : List (String × β)) :
    (∀ row ∈ skewedDfSalted rng S skewed, ∀ y ∈ small, y.1 = row.1.1 →
      ∃ q ∈ smallDfSalted S small, q.2 = row.2) ∧
    (∀ k : String, (∃ x ∈ skewed, x.1 = k) → (∃ y ∈ small, y.1 = k) →
      ∃ sk, (∃ row ∈ skewedDfSalted rng S skewed, row.1.1 = k ∧ row.2 = sk) ∧
            ∃ q ∈ smallDfSalted S small, q.2 = sk) := by
  constructor
  · intro row hrow y hy hk
    obtain ⟨_, s, hsS, hfmt⟩ := skewedDfSalted_mem hS skewed rng hrng row hrow
    refine ⟨(y.2, saltedKey y.1 s), mem_smallDfSalted.mpr ⟨y, hy, s, hsS, rfl⟩, ?_⟩
    rw [hfmt, hk]
  · rintro k ⟨x, hx, hxk⟩ ⟨y, hy, hyk⟩
    obtain ⟨sk, hsk⟩ := skewedDfSalted_exists skewed rng x hx
    obtain ⟨_, s, hsS, hfmt⟩ := skewedDfSalted_mem hS skewed rng hrng (x, sk) hsk
    refine ⟨sk, ⟨(x, sk), hsk, hxk, rfl⟩,
      (y.2, saltedKey y.1 s), mem_smallDfSalted.mpr ⟨y, hy, s, hsS, rfl⟩, ?_⟩
    simp only at hfmt
    rw [hfmt, hyk, hxk]

theorem salted_key_coverage_check :
    ∃ q ∈ smallDfSalted 1 [("A", (5 : Nat))], q.2 = ("A-0" : String) := by
  have h := (salted_key_coverage (fun _ => (0 : ℚ)) 1 (by norm_num)
    (fun i => ⟨le_refl 0, by norm_num⟩) [("A", (0 : Nat))] [("A", (5 : Nat))]).1
  have hmem : ((("A", (0 : Nat)), ("A-0" : String))) ∈
      skewedDfSalted (fun _ => (0 : ℚ)) 1 [("A", (0 : Nat))] := by
    have h0 : saltIndex (fun _ => (0 : ℚ)) 1 0 = 0 := by norm_num [saltIndex]
    rw [skewedDfSalted, skewedDfSalted, h0]
    decide
  exact h _ hmem ("A", (5 : Nat)) (List.mem_singleton.mpr rfl) rfl

/-- C3: the small-side transform applied to a dataset of `N` rows with salt
factor `S` produces exactly `N × S` rows before the join, one per
(input row, salt index) pair. -/
theorem small_side_explosion (S : Nat) (small : List (String × β)) :
    (smallDfSalted S small).length = small.length * S ∧
    ∀ row : β × String, row ∈ smallDfSalted S small ↔
      ∃ y ∈ small, ∃ j < S, row = (y.2, saltedKey y.1 j) := by
  constructor
  · induction small with
    | nil => simp [smallDfSalted_nil]
    | cons y l ih =>
      rw [smallDfSalted_cons]
      simp only [List.length_append, List.length_map, List.length_range, ih,
        List.length_cons]
      ring
  · intro row
    exact mem_smallDfSalted

theorem small_side_explosion_check :
    (smallDfSalted 2 [("A", (1 : Nat))]).length = 1 * 2 :=
  (small_side_explosion 2 [("A", (1 : Nat))]).1

/-- C4: on both sides, every derived salted key is the original key, the
fixed delimiter `"-"`, and the decimal rendering of a salt index in
`[0, S)` — on the skewed side the floor of `rand * S`, on the small side an
element of the generated range. -/
theorem salted_key_format (rng : Nat → ℚ) (S : Nat) (hS : 1 ≤ S)
    (hrng : ∀ i, 0 ≤ rng i ∧ rng i < 1)
    (skewed : List (String × α)) (small : List (String × β)) :
    (∀ row ∈ skewedDfSalted rng S skewed,
      ∃ s, s < S ∧ row.2 = row.1.1 ++ "-" ++ natStr s) ∧
    (∀ row ∈ smallWithSalted S small,
      row.2.1 < S ∧ row.2.2 = row.1.1 ++ "-" ++ natStr row.2.1) := by
  constructor
  · intro row hrow
    obtain ⟨_, s, hsS, hfmt⟩ := skewedDfSalted_mem hS skewed rng hrng row hrow
    exact ⟨s, hsS, hfmt⟩
  · intro row hrow
    simp only [smallWithSalted, List.mem_map] at hrow
    obtain ⟨p, hp, rfl⟩ := hrow
    have h := mem_crossJoin.mp hp
    have hj : p.2 < S := by simpa [salt_df] using h.2
    exact ⟨hj, rfl⟩

theorem salted_key_format_check :
    ∃ s, s < 1 ∧ ("B-0" : String) = "B" ++ "-" ++ natStr s := by
  have h := (salted_key_format (fun _ => (0 : ℚ)) 1 (by norm_num)
    (fun i => ⟨le_refl 0, by norm_num⟩) [("B", (0 : Nat))]
    ([] : List (String × Nat))).1
  have hmem : ((("B", (0 : Nat)), ("B-0" : String))) ∈
      skewedDfSalted (fun _ => (0 : ℚ)) 1 [("B", (0 : Nat))] := by
    have h0 : saltIndex (fun _ => (0 : ℚ)) 1 0 = 0 := by norm_num [saltIndex]
    rw [skewedDfSalted, skewedDfSalted, h0]
    decide
  exact h _ hmem

/-- C5 counterexample: at a concrete input the final joined
DataFrame `salted_join_df` still carries the salted key column `"A-0"`; the
pipeline never drops `salted_col`, so the claim that the output restores
the original schema with no salted-key column is false on the code. -/
theorem salted_col_retained :
    saltedJoinDf (fun _ => (0 : ℚ)) 1 [("A", (0 : Nat))] [("A", (5 : Nat))] =
      [((("A", 0), "A-0"), some 5)] := by
  have h0 : saltIndex (fun _ => (0 : ℚ)) 1 0 = 0 := by norm_num [saltIndex]
  rw [saltedJoinDf, skewedDfSalted, skewedDfSalted, h0]
  decide

/-- C5 (amended): the final result of the pipeline retains every column of
the unsalted join — projecting away the salted key yields exactly the
direct join, and the original key column comes from the skewed side — but
the salted key column is retained in the output, not dropped. -/
theorem salted_join_schema (rng : Nat → ℚ) (S : Nat) (hS : 1 ≤ S)
    (hrng : ∀ i, 0 ≤ rng i ∧ rng i < 1)
    (skewed : List (String × α)) (small : List (String × β)) :
    ((saltedJoinDf rng S skewed small).map fun r => (r.1.1.1, r.1.1.2, r.2)) =
      joinedDf skewed small ∧
    ∀ row ∈ saltedJoinDf rng S skewed small,
      row.1.1 ∈ skewed ∧ ∃ s, s < S ∧ row.1.2 = saltedKey row.1.1.1 s := by
  refine ⟨saltedJoin_proj hS small skewed rng hrng, ?_⟩
  intro row hrow
  have h1 := joinOnSalted_mem_left _ _ row hrow
  exact skewedDfSalted_mem hS skewed rng hrng row.1 h1

theorem salted_join_schema_check :
    ((saltedJoinDf (mkRng 9) 2 [("C", (4 : Nat))] [("C", (7 : Nat))]).map
        fun r => (r.1.1.1, r.1.1.2, r.2)) =
      joinedDf [("C", (4 : Nat))] [("C", (7 : Nat))] :=
  (salted_join_schema (mkRng 9) 2 (by norm_num) (fun i => mkRng_bounds 9 i) _ _).1

/-- C6: with the seeded engine generator (modelled from the spec as a
deterministic function of the seed), two runs of the salted join on the
same seed and inputs produce equal results — the orchestrator is a pure,
stateless function of its inputs and the seed. -/
theorem seeded_join_deterministic (seed S : Nat) (skewed : List (String × α))
    (small : List (String × β))
    (r1 r2 : List (((String × α) × String) × Option β))
    (h1 : r1 = saltedJoinSeeded seed S skewed small)
    (h2 : r2 = saltedJoinSeeded seed S skewed small) : r1 = r2 :=
  h1.trans h2.symm

theorem seeded_join_deterministic_check :
    saltedJoinSeeded 123 10 [("A", (0 : Nat))] [("A", (5 : Nat))] =
      saltedJoinSeeded 123 10 [("A", (0 : Nat))] [("A", (5 : Nat))] :=
  seeded_join_deterministic 123 10 _ _ _ _ rfl rfl

/-- C7: if the join key of some row cannot be rendered as text, the checked
salt-key transform (modelled from the spec) fails with a type error
surfaced to the caller; and whenever it succeeds, every key was actually
rendered — no key is silently coerced. -/
theorem salt_transform_type_error (render : κ → Option String) (rng : Nat → ℚ)
    (S : Nat) (df : List (κ × α)) :
    ((∃ r ∈ df, render r.1 = none) →
      ∃ e, saltSkewedChecked render rng S df = Except.error e) ∧
    (∀ out, saltSkewedChecked render rng S df = Except.ok out →
      ∀ r ∈ df, ∃ k, render r.1 = some k) := by
  induction df generalizing rng with
  | nil =>
    refine ⟨?_, ?_⟩
    · rintro ⟨r, hr, _⟩
      simp at hr
    · intro out _ r hr
      simp at hr
  | cons x l ih =>
    refine ⟨?_, ?_⟩
    · rintro ⟨r, hr, hrnone⟩
      rcases List.mem_cons.mp hr with h | h
      · rw [h] at hrnone
        exact ⟨_, saltSkewedChecked_cons_none render rng S x l hrnone⟩
      · cases hx : render x.1 with
        | none => exact ⟨_, saltSkewedChecked_cons_none render rng S x l hx⟩
        | some k =>
          obtain ⟨e, he⟩ := (ih (fun i => rng (i + 1))).1 ⟨r, h, hrnone⟩
          refine ⟨e, ?_⟩
          rw [saltSkewedChecked_cons_some render rng S x l k hx, he]
    · intro out hout r hr
      cases hx : render x.1 with
      | none =>
        rw [saltSkewedChecked_cons_none render rng S x l hx] at hout
        exact absurd hout (by simp)
      | some k =>
        rw [saltSkewedChecked_cons_some render rng S x l k hx] at hout
        rcases List.mem_cons.mp hr with h | h
        · subst h
          exact ⟨k, hx⟩
        · cases hrec : saltSkewedChecked render (fun i => rng (i + 1)) S l with
          | error e => rw [hrec] at hout; exact absurd hout (by simp)
          | ok t => exact (ih (fun i => rng (i + 1))).2 t hrec r h

theorem salt_transform_type_error_check :
    ∃ e, saltSkewedChecked (fun _ : String => (none : Option String))
      (fun _ => (0 : ℚ)) 1 [(("A" : String), (0 : Nat))] = Except.error e :=
  (salt_transform_type_error (fun _ : String => (none : Option String))
    (fun _ => (0 : ℚ)) 1 [(("A" : String), (0 : Nat))]).1
    ⟨("A", 0), List.mem_singleton.mpr rfl, rfl⟩

/-- C8: the key-distribution diagnostic maps each distinct key of the
dataset — and only those — to its row count and its (rounded) percentage of
the total row count, and on the empty dataset it returns the empty mapping
rather than an error. -/
theorem pct_of_data_diagnostic (df : List (String × α)) :
    pctOfData ([] : List (String × α)) = [] ∧
    (∀ k : String, (∃ a, (k, a) ∈ df) ↔ ∃ c p, (k, c, p) ∈ pctOfData df) ∧
    (∀ k c p, (k, c, p) ∈ pctOfData df →
      c = df.countP (fun r => decide (r.1 = k)) ∧
      p = round3 ((c : ℚ) / (df.length : ℚ) * 100)) := by
  refine ⟨rfl, ?_, ?_⟩
  · intro k
    constructor
    · rintro ⟨a, ha⟩
      refine ⟨df.countP (fun r => decide (r.1 = k)),
        round3 ((df.countP (fun r => decide (r.1 = k)) : ℚ) / (df.length : ℚ) * 100), ?_⟩
      simp only [pctOfData, groupCount, List.map_map, List.mem_map, Function.comp_apply]
      exact ⟨k, List.mem_dedup.mpr (List.mem_map.mpr ⟨(k, a), ha, rfl⟩), rfl⟩
    · rintro ⟨c, p, hmem⟩
      simp only [pctOfData, groupCount, List.map_map, List.mem_map,
        Function.comp_apply, Prod.mk.injEq] at hmem
      obtain ⟨k2, hk2, rfl, -, -⟩ := hmem
      obtain ⟨r, hr, hrk⟩ := List.mem_map.mp (List.mem_dedup.mp hk2)
      exact ⟨r.2, by rw [← hrk]; exact hr⟩
  · intro k c p hmem
    simp only [pctOfData, groupCount, List.map_map, List.mem_map,
      Function.comp_apply, Prod.mk.injEq] at hmem
    obtain ⟨k2, _, rfl, hc, hp⟩ := hmem
    exact ⟨hc.symm, by rw [← hp, hc]⟩

theorem pct_of_data_diagnostic_check :
    ∃ c p, (("A" : String), c, p) ∈ pctOfData [(("A" : String), (0 : Nat))] :=
  ((pct_of_data_diagnostic [(("A" : String), (0 : Nat))]).2.1 "A").mp ⟨0, List.mem_singleton.mpr rfl⟩

/-- C9: the salted-key construction is injective on (original key, salt
index) pairs — decimal digit renderings never contain the delimiter `"-"`,
so equal salted keys force equal original keys and equal salt indices;
salting never merges distinct keys or indices. -/
theorem salted_key_injective (k1 k2 : String) (i j : Nat)
    (h : saltedKey k1 i = saltedKey k2 j) : k1 = k2 ∧ i = j :=
  saltedKey_inj h

theorem salted_key_injective_check : ("A" : String) = "A" ∧ (3 : Nat) = 3 :=
  salted_key_injective "A" "A" 3 3 rfl

/-- C10: the salted small dataset carries exactly the non-key payload plus
the salted key (the original key column and the generated salt-sequence
column are dropped), and in the joined result the original key column comes
only from the skewed side. -/
theorem small_side_drops_key (rng : Nat → ℚ) (S : Nat)
    (skewed : List (String × α)) (small : List (String × β)) :
    (∀ row ∈ smallDfSalted S small,
      ∃ y ∈ small, ∃ j, j < S ∧ row = (y.2, saltedKey y.1 j)) ∧
    (∀ row ∈ saltedJoinDf rng S skewed small, row.1.1 ∈ skewed) := by
  constructor
  · intro row hrow
    obtain ⟨y, hy, j, hj, heq⟩ := mem_smallDfSalted.mp hrow
    exact ⟨y, hy, j, hj, heq⟩
  · intro row hrow
    exact skewedDfSalted_mem_fst skewed rng row.1 (joinOnSalted_mem_left _ _ row hrow)

theorem small_side_drops_key_check :
    ∀ row ∈ smallDfSalted 2 [("A", (1 : Nat))],
      ∃ y ∈ [("A", (1 : Nat))], ∃ j, j < 2 ∧ row = (y.2, saltedKey y.1 j) :=
  (small_side_drops_key (fun _ => (0 : ℚ)) 2 ([] : List (String × Nat)) _).1

end SaltedJoins
